import Mathlib

/-!
Verification of the KPI-Rover ecu_pts framing and command protocol core.

Bytes are modelled as natural numbers (well-formed inputs carry the bound
b < 256 as a hypothesis where it matters).  C++ bitwise operations map to
the corresponding Nat operations; uint8_t and uint16_t truncations are made
explicit with % 256 and the fact that the CRC state stays below 2 ^ 16.
The two thread loops and the serial device are outside the embedding: Send
is modelled as a function from a payload and the outbound queue to the new
outbound queue, and frame extraction as a function from the ring-buffer
state to the final ring-buffer state plus the list of payloads pushed to
the inbound queue, in order.
-/

/-- CRC16-Modbus inner bit step, one iteration of the 8-round loop in
SerialTransport::CalculateCrc16: if the LSB is set, shift right and xor
the reflected polynomial 0xA001, else just shift right. -/
def crcBitStep (crc : Nat) : Nat :=
  if crc &&& 1 ≠ 0 then (crc >>> 1) ^^^ 0xA001 else crc >>> 1

/-- Eight applications of the bit step (the inner for loop). -/
def crcBits : Nat → Nat → Nat
  | 0, crc => crc
  | n + 1, crc => crcBits n (crcBitStep crc)

/-- SerialTransport::CalculateCrc16: init 0xFFFF, xor each byte into the
CRC register, then run 8 bit steps. -/
def CalculateCrc16 (data : List Nat) : Nat :=
  data.foldl (fun crc b => crcBits 8 (crc ^^^ b)) 0xFFFF

/-- State of CircularBuffer: the backing vector plus head, tail, count,
size and the mask used for wrap-around index arithmetic. -/
structure CircularBuffer where
  buffer_ : List Nat
  head_ : Nat
  tail_ : Nat
  count_ : Nat
  size_ : Nat
  mask_ : Nat
deriving DecidableEq

/-- CircularBuffer constructor: zeroed backing store of the given size,
mask = size - 1, all indices zero. -/
def CircularBuffer.create (size : Nat) : CircularBuffer :=
  { buffer_ := List.replicate size 0
    head_ := 0
    tail_ := 0
    count_ := 0
    size_ := size
    mask_ := size - 1 }

/-- Model of memcpy into a byte vector: writes data sequentially starting
at index dst (writes past the end are dropped, as List.set is). -/
def memcpyList : List Nat → Nat → List Nat → List Nat
  | buf, _, [] => buf
  | buf, dst, x :: xs => memcpyList (buf.set dst x) (dst + 1) xs

/-- The two memcpy calls of CircularBuffer::Push: the data is copied in at
most two contiguous chunks, split at the physical end of the vector. -/
def pushedBuffer (cb : CircularBuffer) (data : List Nat) : List Nat :=
  let space_at_end := cb.size_ - cb.head_
  let first_chunk := if data.length < space_at_end then data.length else space_at_end
  let buf1 := memcpyList cb.buffer_ cb.head_ (data.take first_chunk)
  if data.length > first_chunk then memcpyList buf1 0 (data.drop first_chunk) else buf1

/-- CircularBuffer::Push: copy the data in (pushedBuffer), advance head,
and on overflow advance tail past the oldest bytes so count is capped at
size. -/
def CircularBuffer.Push (cb : CircularBuffer) (data : List Nat) : CircularBuffer :=
  if cb.count_ + data.length > cb.size_ then
    { cb with
      buffer_ := pushedBuffer cb data
      head_ := (cb.head_ + data.length) &&& cb.mask_
      tail_ := (cb.tail_ + (cb.count_ + data.length - cb.size_)) &&& cb.mask_
      count_ := cb.size_ }
  else
    { cb with
      buffer_ := pushedBuffer cb data
      head_ := (cb.head_ + data.length) &&& cb.mask_
      count_ := cb.count_ + data.length }

/-- CircularBuffer::Pop: drop the n oldest bytes, clamped to the current
occupancy. -/
def CircularBuffer.Pop (cb : CircularBuffer) (n : Nat) : CircularBuffer :=
  let m := if n > cb.count_ then cb.count_ else n
  { cb with
    tail_ := (cb.tail_ + m) &&& cb.mask_
    count_ := cb.count_ - m }

/-- CircularBuffer::Peek: read the byte at the given offset from the tail,
with wrap-around. -/
def CircularBuffer.Peek (cb : CircularBuffer) (offset : Nat) : Nat :=
  cb.buffer_.getD ((cb.tail_ + offset) &&& cb.mask_) 0

/-- CircularBuffer::Size. -/
def CircularBuffer.Size (cb : CircularBuffer) : Nat := cb.count_

/-- Fold of CircularBuffer::Push over a list of chunks, modelling a byte
stream arriving in arbitrarily sized pieces. -/
def CircularBuffer.pushChunks (cb : CircularBuffer) (chunks : List (List Nat)) : CircularBuffer :=
  chunks.foldl CircularBuffer.Push cb

/-- The frame assembled by the Qt-app SerialTransport::Send: length byte
is payload size + 3 truncated to uint8_t, CRC is computed over the length
byte followed by the payload, and the frame is the 0xAA marker, the length
byte, the payload and the CRC in low-byte-first order. -/
def sendFrame (data : List Nat) : List Nat :=
  let len_byte := (data.length + 3) % 256
  let payload_with_len := len_byte :: data
  let crc := CalculateCrc16 payload_with_len
  0xAA :: payload_with_len ++ [crc &&& 0xFF, (crc >>> 8) &&& 0xFF]

/-- Qt-app SerialTransport::Send acting on the outbound queue: empty
payloads are ignored, payloads with size + 2 > 255 are ignored, otherwise
exactly one frame is appended to the outbound queue. -/
def SerialTransport.Send (data : List Nat) (output_queue : List (List Nat)) : List (List Nat) :=
  if data.length = 0 then output_queue
  else if data.length + 2 > 255 then output_queue
  else output_queue ++ [sendFrame data]

/-- Reference (tools/cpp_app) SerialTransport::Send: the caller reserves
data[0] for the length byte; the length byte is data size + 2, the CRC is
computed over the whole data vector (length byte included). -/
def SerialTransport.SendRef (data : List Nat) (output_queue : List (List Nat)) : List (List Nat) :=
  if data.length = 0 then output_queue
  else if data.length + 2 > 255 then output_queue
  else
    let data2 := data.set 0 ((data.length + 2) % 256)
    let crc := CalculateCrc16 data2
    output_queue ++ [0xAA :: data2 ++ [crc &&& 0xFF, (crc >>> 8) &&& 0xFF]]

/-- The candidate frame materialized by SerialTransport::ProcessBuffer:
total_len = 1 + length byte value, read byte by byte with Peek. -/
def candidateFrame (cb : CircularBuffer) : List Nat :=
  (List.range (1 + cb.Peek 1)).map cb.Peek

/-- The CRC carried in the trailing two bytes of a candidate frame, low
byte first. -/
def frameReceivedCrc (frame : List Nat) : Nat :=
  frame.getD (frame.length - 2) 0 ||| (frame.getD (frame.length - 1) 0 <<< 8)

/-- The CRC recomputed by ProcessBuffer over len_byte - 2 bytes starting
at the length byte. -/
def frameCalculatedCrc (frame : List Nat) (len_byte : Nat) : Nat :=
  CalculateCrc16 ((frame.drop 1).take (len_byte - 2))

/-- The payload extracted from an accepted frame: bytes strictly between
the length byte and the CRC; empty when the length byte is exactly 3. -/
def framePayload (frame : List Nat) (len_byte : Nat) : List Nat :=
  if len_byte > 3 then (frame.take (frame.length - 2)).drop 2 else []

/-- One-loop body of SerialTransport::ProcessBuffer with explicit fuel
(each iteration consumes one unit; the wrapper supplies enough fuel for
the loop to run to completion, since every iteration either pops at least
one byte or returns).  Returns the final ring-buffer state and the list of
payloads pushed to the inbound queue, in order. -/
def processBufferFuel : Nat → CircularBuffer → CircularBuffer × List (List Nat)
  | 0, cb => (cb, [])
  | fuel + 1, cb =>
    if cb.Size < 2 then (cb, [])
    else if cb.Peek 0 ≠ 0xAA then processBufferFuel fuel (cb.Pop 1)
    else if cb.Peek 1 < 3 then processBufferFuel fuel (cb.Pop 1)
    else if cb.Size < 1 + cb.Peek 1 then (cb, [])
    else if frameReceivedCrc (candidateFrame cb) = frameCalculatedCrc (candidateFrame cb) (cb.Peek 1) then
      let rest := processBufferFuel fuel (cb.Pop (1 + cb.Peek 1))
      (rest.1, framePayload (candidateFrame cb) (cb.Peek 1) :: rest.2)
    else processBufferFuel fuel (cb.Pop 1)

/-- SerialTransport::ProcessBuffer: run the extraction loop to completion
(count + 1 units of fuel always suffice). -/
def SerialTransport.ProcessBuffer (cb : CircularBuffer) : CircularBuffer × List (List Nat) :=
  processBufferFuel (cb.count_ + 1) cb

/-- SerialTransport::Read: non-blocking pop from the inbound queue. -/
def SerialTransport.Read (input_queue : List (List Nat)) : Option (List Nat) × List (List Nat) :=
  match input_queue with
  | [] => (none, [])
  | p :: rest => (some p, rest)

/-- Big-endian 32-bit serialization of an int32 value (the four
shift-and-mask byte extractions in ECUConnector), on the two-complement
bit pattern of the value. -/
def be32 (v : Int) : List Nat :=
  let w := (v % 4294967296).toNat
  [(w >>> 24) &&& 0xFF, (w >>> 16) &&& 0xFF, (w >>> 8) &&& 0xFF, w &&& 0xFF]

/-- ECUConnector::SetAllMotorsSpeed command payload: command id 0x03
followed by four big-endian speeds, each multiplied by 100. -/
def ECUConnector.SetAllMotorsSpeedPayload (speeds : List Int) : List Nat :=
  0x03 :: speeds.flatMap (fun speed => be32 (speed * 100))

/-- ECUConnector::GetEncoder: when connected and the motor id is in 0..3,
record it as the outstanding encoder request and send [0x04, motor_id];
otherwise a no-op.  Returns the new outstanding id and the sent payload. -/
def ECUConnector.GetEncoder (lastRequestedEncoderMotor : Int) (motorId : Int)
    (connected : Bool) : Int × Option (List Nat) :=
  if ¬connected ∨ motorId < 0 ∨ motorId > 3 then (lastRequestedEncoderMotor, none)
  else (motorId, some [0x04, (motorId % 256).toNat])

/-- Decoded IMU record; each field holds the 32-bit pattern of the
corresponding IEEE-754 single (the memcpy in ECUConnector reinterprets
the assembled little-endian word as a float bit for bit, so the bit
pattern is the faithful shallow model). -/
structure ImuData where
  accel_x : Nat
  accel_y : Nat
  accel_z : Nat
  gyro_x : Nat
  gyro_y : Nat
  gyro_z : Nat
  mag_x : Nat
  mag_y : Nat
  mag_z : Nat
  quat_w : Nat
  quat_x : Nat
  quat_y : Nat
  quat_z : Nat
deriving DecidableEq

/-- The readFloat lambda in ECUConnector::ProcessIncomingData: assemble a
little-endian 32-bit word from four payload bytes at the given offset. -/
def ECUConnector.readFloat (payload : List Nat) (offset : Nat) : Nat :=
  (payload.getD (offset + 3) 0 <<< 24) ||| (payload.getD (offset + 2) 0 <<< 16) |||
    (payload.getD (offset + 1) 0 <<< 8) ||| payload.getD offset 0

/-- The ImuData assembled by ECUConnector::ProcessIncomingData for a 0x06
response; the offsets follow the source, which swaps the hardware x and y
axes of the accelerometer, gyroscope and magnetometer. -/
def ECUConnector.decodeImu (payload : List Nat) : ImuData :=
  { accel_x := ECUConnector.readFloat payload 5
    accel_y := ECUConnector.readFloat payload 1
    accel_z := ECUConnector.readFloat payload 9
    gyro_x := ECUConnector.readFloat payload 17
    gyro_y := ECUConnector.readFloat payload 13
    gyro_z := ECUConnector.readFloat payload 21
    mag_x := ECUConnector.readFloat payload 29
    mag_y := ECUConnector.readFloat payload 25
    mag_z := ECUConnector.readFloat payload 33
    quat_w := ECUConnector.readFloat payload 37
    quat_x := ECUConnector.readFloat payload 41
    quat_y := ECUConnector.readFloat payload 45
    quat_z := ECUConnector.readFloat payload 49 }

/-- Big-endian 32-bit load from a response payload (the four
shift-and-or byte combinations in ECUConnector). -/
def ECUConnector.beWord (payload : List Nat) (offset : Nat) : Nat :=
  (payload.getD offset 0 <<< 24) ||| (payload.getD (offset + 1) 0 <<< 16) |||
    (payload.getD (offset + 2) 0 <<< 8) ||| payload.getD (offset + 3) 0

/-- Reinterpret a 32-bit pattern as a signed int32 value. -/
def toInt32 (w : Nat) : Int :=
  if w < 2147483648 then (w : Int) else (w : Int) - 4294967296

/-- Events emitted (as Qt signals) by ECUConnector::ProcessIncomingData.
Encoder values are carried as the exact decoded integers; the lossy
static_cast to float in the source does not matter for any claim. -/
inductive ECUEvent where
  | apiVersionReceived (version : Nat)
  | encoderValueUpdated (motorId : Int) (value : Int)
  | encoderValuesUpdated (values : List Int)
  | imuDataReceived (data : ImuData)
deriving DecidableEq

/-- Dispatch of ECUConnector::ProcessIncomingData for a single inbound
payload: given the outstanding-encoder-request state, returns the new
state and the emitted events. -/
def ECUConnector.ProcessPayload (lastRequestedEncoderMotor : Int) (payload : List Nat) :
    Int × List ECUEvent :=
  if payload.length = 0 then (lastRequestedEncoderMotor, [])
  else
    let cmdId := payload.getD 0 0
    if cmdId = 0x01 then
      if 2 ≤ payload.length then
        (lastRequestedEncoderMotor, [ECUEvent.apiVersionReceived (payload.getD 1 0)])
      else (lastRequestedEncoderMotor, [])
    else if cmdId = 0x04 then
      if 5 ≤ payload.length ∧ 0 ≤ lastRequestedEncoderMotor then
        (-1, [ECUEvent.encoderValueUpdated lastRequestedEncoderMotor
          (toInt32 (ECUConnector.beWord payload 1))])
      else (lastRequestedEncoderMotor, [])
    else if cmdId = 0x05 then
      if 17 ≤ payload.length then
        (lastRequestedEncoderMotor, [ECUEvent.encoderValuesUpdated
          ((List.range 4).map (fun i => toInt32 (ECUConnector.beWord payload (1 + i * 4))))])
      else (lastRequestedEncoderMotor, [])
    else if cmdId = 0x06 then
      if 53 ≤ payload.length then
        (lastRequestedEncoderMotor, [ECUEvent.imuDataReceived (ECUConnector.decodeImu payload)])
      else (lastRequestedEncoderMotor, [])
    else (lastRequestedEncoderMotor, [])

/-- Modelled from the spec: the frame the spec (and claim C1) prescribes
for a payload p — marker 0xAA, length byte 1 + len(p) + 2, the payload,
then the CRC16-Modbus of the length byte followed by the payload, low
byte first. -/
def specFrame (p : List Nat) : List Nat :=
  let lenByte := 1 + p.length + 2
  let crc := CalculateCrc16 (lenByte :: p)
  0xAA :: lenByte :: p ++ [crc % 256, crc / 256]

/-- The i-th field of an ImuData record in the fixed field order of the
data model (accel xyz, gyro xyz, mag xyz, quat wxyz). -/
def imuField (d : ImuData) (i : Nat) : Nat :=
  [d.accel_x, d.accel_y, d.accel_z, d.gyro_x, d.gyro_y, d.gyro_z,
    d.mag_x, d.mag_y, d.mag_z, d.quat_w, d.quat_x, d.quat_y, d.quat_z].getD i 0

/-- The 32-bit pattern of the i-th float transmitted in a 0x06 response
payload (floats are packed contiguously after the command id byte). -/
def transmittedFloatBits (payload : List Nat) (i : Nat) : Nat :=
  ECUConnector.readFloat payload (1 + 4 * i)

/-- The source index permutation actually applied by decodeImu: field i of
the record is read from transmitted float imuSourceIndex i (x and y are
swapped within accel, gyro and mag; z components and the quaternion are
taken in transmitted order). -/
def imuSourceIndex (i : Nat) : Nat :=
  [1, 0, 2, 4, 3, 5, 7, 6, 8, 9, 10, 11, 12].getD i i

/-- Invariant tying a ring-buffer state to the byte stream pushed so far:
with stream S of length n, count = min n C, head = n mod C, the tail marks
stream offset n - count, and the retained window of the stream is laid out
in the backing vector at stream-offset-mod-C positions. -/
def streamInv (C : Nat) (S : List Nat) (cb : CircularBuffer) : Prop :=
  cb.size_ = C ∧ cb.mask_ = C - 1 ∧ cb.buffer_.length = C ∧
  cb.count_ = min S.length C ∧
  cb.head_ = S.length % C ∧
  cb.tail_ = (S.length - cb.count_) % C ∧
  ∀ m, S.length - cb.count_ ≤ m → m < S.length →
    cb.buffer_.getD (m % C) 0 = S.getD m 0

theorem crcBitStep_lt {crc : Nat} (h : crc < 65536) : crcBitStep crc < 65536 := by
  have hs : crc >>> 1 < 65536 := by
    rw [Nat.shiftRight_eq_div_pow]
    omega
  unfold crcBitStep
  split
  · have h16 : (65536 : Nat) = 2 ^ 16 := by norm_num
    rw [h16] at hs ⊢
    exact Nat.xor_lt_two_pow hs (by norm_num)
  · exact hs

theorem crcBits_lt (n : Nat) : ∀ crc, crc < 65536 → crcBits n crc < 65536 := by
  induction n with
  | zero => intro crc h; simpa [crcBits] using h
  | succ k ih => intro crc h; simpa [crcBits] using ih _ (crcBitStep_lt h)

theorem crcFoldl_lt : ∀ (data : List Nat), (∀ b ∈ data, b < 65536) → ∀ crc, crc < 65536 →
    data.foldl (fun c b => crcBits 8 (c ^^^ b)) crc < 65536 := by
  intro data
  induction data with
  | nil => intro _ crc h; simpa using h
  | cons x xs ih =>
    intro hb crc h
    simp only [List.foldl_cons]
    refine ih (fun b hbm => hb b (List.mem_cons_of_mem x hbm)) _ ?_
    apply crcBits_lt
    have h16 : (65536 : Nat) = 2 ^ 16 := by norm_num
    rw [h16]
    exact Nat.xor_lt_two_pow (by omega) (by have hx := hb x (by simp); omega)

theorem CalculateCrc16_lt (data : List Nat) (hb : ∀ b ∈ data, b < 65536) :
    CalculateCrc16 data < 65536 :=
  crcFoldl_lt data hb _ (by norm_num)

theorem and_255_eq_mod (x : Nat) : x &&& 255 = x % 256 := by
  have h255 : (255 : Nat) = 2 ^ 8 - 1 := by norm_num
  rw [h255, Nat.and_pow_two_sub_one_eq_mod]

theorem hi_byte_eq {c : Nat} (h : c < 65536) : (c >>> 8) &&& 255 = c / 256 := by
  rw [and_255_eq_mod, Nat.shiftRight_eq_div_pow]
  have h2 : (2 : Nat) ^ 8 = 256 := by norm_num
  rw [h2]
  omega

theorem crc_lor_split {c : Nat} (h : c < 65536) :
    (c &&& 255) ||| (((c >>> 8) &&& 255) <<< 8) = c := by
  rw [and_255_eq_mod, hi_byte_eq h]
  have hmul : (c / 256) <<< 8 = 2 ^ 8 * (c / 256) := by rw [Nat.shiftLeft_eq]; ring
  have hmod : c % 256 < 2 ^ 8 := by
    have h2 : (2 : Nat) ^ 8 = 256 := by norm_num
    omega
  rw [hmul, Nat.lor_comm, ← Nat.mul_add_lt_is_or hmod (c / 256)]
  have h2 : (2 : Nat) ^ 8 = 256 := by norm_num
  omega

/-- C1: for every payload p with 1 <= len(p) <= 252 (bytes below 256), the
Qt-app SerialTransport::Send appends to the outbound queue exactly one
frame [0xAA, L, p..., crc_lo, crc_hi] with L = 1 + len(p) + 2 and the
CRC16-Modbus of [L] ++ p in low-byte-first order, as prescribed by the
spec (specFrame). -/
theorem send_encodes_spec_frame (p : List Nat) (q : List (List Nat))
    (h1 : 1 ≤ p.length) (h2 : p.length ≤ 252) (hb : ∀ b ∈ p, b < 256) :
    SerialTransport.Send p q = q ++ [specFrame p] := by
  unfold SerialTransport.Send
  rw [if_neg (by omega), if_neg (by omega)]
  have hLmod : (p.length + 3) % 256 = 1 + p.length + 2 := by
    rw [Nat.mod_eq_of_lt (by omega)]
    omega
  have hcrc_lt : CalculateCrc16 ((1 + p.length + 2) :: p) < 65536 := by
    apply CalculateCrc16_lt
    intro b hbm
    rcases List.mem_cons.mp hbm with hbe | hbm2
    · omega
    · have := hb b hbm2; omega
  unfold sendFrame specFrame
  dsimp only
  rw [hLmod, and_255_eq_mod, hi_byte_eq hcrc_lt]

/-- C1 witness: the theorem applied at the one-byte payload [1]. -/
theorem send_encodes_spec_frame_witness :
    SerialTransport.Send [1] [] = [] ++ [specFrame [1]] :=
  send_encodes_spec_frame [1] [] (by decide) (by decide) (by decide)

set_option maxRecDepth 100000

/-- C3: at a 253-byte payload the framed size is 1 + 253 + 2 = 256 > 255,
so per the spec Send must no-op; the Qt-app Send instead enqueues a frame
whose length byte wrapped to 0 (an invalid frame, below the protocol
minimum of 3), because its guard tests size + 2 while its length byte is
size + 3.  The reference implementation (SendRef, same payload occupying
253 bytes plus the reserved length slot) rejects it as the spec demands. -/
theorem send_oversize_boundary :
    SerialTransport.Send (List.replicate 253 0) [] ≠ [] ∧
    ((SerialTransport.Send (List.replicate 253 0) []).getD 0 []).getD 1 255 = 0 ∧
    SerialTransport.SendRef (List.replicate 254 0) [] = [] := by decide

/-- C4 counterexample: encode_set_all_motors_speed([0,0,0,0]) is a 17-byte
payload and framing it yields a 21-byte frame, but the length byte is not
19 as the claim states. -/
theorem set_all_motors_frame_not_19 :
    (ECUConnector.SetAllMotorsSpeedPayload [0, 0, 0, 0]).length = 17 ∧
    ((SerialTransport.Send (ECUConnector.SetAllMotorsSpeedPayload [0, 0, 0, 0]) []).getD 0 []).length = 21 ∧
    ((SerialTransport.Send (ECUConnector.SetAllMotorsSpeedPayload [0, 0, 0, 0]) []).getD 0 []).getD 1 0 ≠ 19 := by decide

/-- C4 amended: encode_set_all_motors_speed([0,0,0,0]) produces a 17-byte
payload; framing it enqueues exactly one 21-byte frame whose length byte
equals 20 (= 1 + 17 + 2, per the frame-length invariant). -/
theorem set_all_motors_frame_length_byte_20 :
    (ECUConnector.SetAllMotorsSpeedPayload [0, 0, 0, 0]).length = 17 ∧
    SerialTransport.Send (ECUConnector.SetAllMotorsSpeedPayload [0, 0, 0, 0]) [] =
      [sendFrame (ECUConnector.SetAllMotorsSpeedPayload [0, 0, 0, 0])] ∧
    (sendFrame (ECUConnector.SetAllMotorsSpeedPayload [0, 0, 0, 0])).length = 21 ∧
    (sendFrame (ECUConnector.SetAllMotorsSpeedPayload [0, 0, 0, 0])).getD 1 0 = 20 := by decide

/-- C9: a frame whose length byte is exactly 3 (marker, length byte, CRC
of the length byte alone) is accepted by frame extraction, which pushes a
zero-length payload to the inbound queue and consumes all 4 bytes; Read
then hands the empty byte vector to the caller, while Send rejects empty
payloads and so never produces such a frame. -/
theorem empty_payload_frame_accepted :
    (SerialTransport.ProcessBuffer ((CircularBuffer.create 65536).Push
      [0xAA, 3, CalculateCrc16 [3] &&& 255, (CalculateCrc16 [3] >>> 8) &&& 255])).2 = [[]] ∧
    (SerialTransport.ProcessBuffer ((CircularBuffer.create 65536).Push
      [0xAA, 3, CalculateCrc16 [3] &&& 255, (CalculateCrc16 [3] >>> 8) &&& 255])).1.Size = 0 ∧
    SerialTransport.Read [[]] = (some [], []) ∧
    SerialTransport.Send [] [[1]] = [[1]] := by decide

/-- C8 counterexample: in a 0x06 response carrying 1.0f (bit pattern
0x3F800000) as the first transmitted float and zeros elsewhere, the first
ImuSample field (accel_x) does not receive the first transmitted float:
the decode layer swaps the hardware x and y axes. -/
theorem imu_first_field_not_first_float :
    imuField (ECUConnector.decodeImu (0x06 :: ([0, 0, 128, 63] ++ List.replicate 48 0))) 0 ≠
      transmittedFloatBits (0x06 :: ([0, 0, 128, 63] ++ List.replicate 48 0)) 0 ∧
    (0x06 :: ([0, 0, 128, 63] ++ List.replicate 48 0)).getD 0 0 = 0x06 ∧
    53 ≤ (0x06 :: ([0, 0, 128, 63] ++ List.replicate 48 0)).length := by decide

/-- C8 amended: a 0x06 response payload of length at least 53 emits one
ImuData record assembled from the 13 little-endian 32-bit words of the
payload, bit pattern for bit pattern, but with the x and y components of
the accelerometer, gyroscope and magnetometer swapped (field i is read
from transmitted float imuSourceIndex i); z components and the quaternion
are taken in transmitted order. -/
theorem imu_decode_swapped_mapping (s : Int) (p : List Nat)
    (h6 : p.getD 0 0 = 0x06) (hlen : 53 ≤ p.length) :
    ECUConnector.ProcessPayload s p = (s, [ECUEvent.imuDataReceived (ECUConnector.decodeImu p)]) ∧
    ∀ i, i < 13 → imuField (ECUConnector.decodeImu p) i = transmittedFloatBits p (imuSourceIndex i) := by
  constructor
  · have h0 : ¬ p.length = 0 := by omega
    unfold ECUConnector.ProcessPayload
    rw [if_neg h0]
    dsimp only
    rw [h6]
    simp [hlen]
  · intro i hi
    interval_cases i <;> rfl

/-- C8 amended witness: the theorem applied to the all-zero 53-byte 0x06
response. -/
theorem imu_decode_swapped_mapping_witness :
    ECUConnector.ProcessPayload 0 (0x06 :: List.replicate 52 0) =
      (0, [ECUEvent.imuDataReceived (ECUConnector.decodeImu (0x06 :: List.replicate 52 0))]) ∧
    imuField (ECUConnector.decodeImu (0x06 :: List.replicate 52 0)) 0 =
      transmittedFloatBits (0x06 :: List.replicate 52 0) (imuSourceIndex 0) :=
  ⟨(imu_decode_swapped_mapping 0 (0x06 :: List.replicate 52 0) (by decide) (by decide)).1,
   (imu_decode_swapped_mapping 0 (0x06 :: List.replicate 52 0) (by decide) (by decide)).2 0 (by decide)⟩

/-- C10: a 0x04 (get-encoder) response is delivered only when an encoder
request is outstanding (lastRequestedEncoderMotor at least 0); delivery
resets the outstanding id to -1, so the single-cell state keeps at most
one request outstanding; with no outstanding request the response is
silently dropped; and GetEncoder records the requested motor id as the
new outstanding id. -/
theorem encoder_response_gating (s : Int) (p : List Nat)
    (h4 : p.getD 0 0 = 0x04) (hlen : 5 ≤ p.length) :
    (0 ≤ s → ECUConnector.ProcessPayload s p =
      (-1, [ECUEvent.encoderValueUpdated s (toInt32 (ECUConnector.beWord p 1))])) ∧
    (s < 0 → ECUConnector.ProcessPayload s p = (s, [])) ∧
    (∀ m : Int, 0 ≤ m → m ≤ 3 → (ECUConnector.GetEncoder s m true).1 = m) := by
  refine ⟨?_, ?_, ?_⟩
  · intro hs
    have h0 : ¬ p.length = 0 := by omega
    unfold ECUConnector.ProcessPayload
    rw [if_neg h0]
    dsimp only
    rw [h4]
    simp [hlen, hs]
  · intro hs
    have h0 : ¬ p.length = 0 := by omega
    have hns : ¬ (0 : Int) ≤ s := by omega
    unfold ECUConnector.ProcessPayload
    rw [if_neg h0]
    dsimp only
    rw [h4]
    simp [hlen, hns]
  · intro m h0 h3
    unfold ECUConnector.GetEncoder
    rw [if_neg (by simp; omega)]

/-- C10 witness: the theorem applied to the response [4,0,0,0,7], once
with motor 2 outstanding and once with no outstanding request. -/
theorem encoder_response_gating_witness :
    ECUConnector.ProcessPayload 2 [4, 0, 0, 0, 7] =
      (-1, [ECUEvent.encoderValueUpdated 2 (toInt32 (ECUConnector.beWord [4, 0, 0, 0, 7] 1))]) ∧
    ECUConnector.ProcessPayload (-1) [4, 0, 0, 0, 7] = (-1, []) :=
  ⟨(encoder_response_gating 2 [4, 0, 0, 0, 7] (by decide) (by decide)).1 (by decide),
   (encoder_response_gating (-1) [4, 0, 0, 0, 7] (by decide) (by decide)).2.1 (by decide)⟩

theorem Pop_count (cb : CircularBuffer) (n : Nat) :
    (cb.Pop n).count_ = cb.count_ - min n cb.count_ := by
  unfold CircularBuffer.Pop
  dsimp only
  split <;> omega

theorem Pop_buffer (cb : CircularBuffer) (n : Nat) : (cb.Pop n).buffer_ = cb.buffer_ := rfl

theorem Pop_size (cb : CircularBuffer) (n : Nat) : (cb.Pop n).size_ = cb.size_ := rfl

theorem Pop_mask (cb : CircularBuffer) (n : Nat) : (cb.Pop n).mask_ = cb.mask_ := rfl

theorem Pop_tail (cb : CircularBuffer) (n : Nat) :
    (cb.Pop n).tail_ = (cb.tail_ + min n cb.count_) &&& cb.mask_ := by
  have h : (if n > cb.count_ then cb.count_ else n) = min n cb.count_ := by split <;> omega
  unfold CircularBuffer.Pop
  dsimp only
  rw [h]

theorem processBufferFuel_congr :
    ∀ (c fuel1 fuel2 : Nat) (cb : CircularBuffer), cb.count_ = c →
      c < fuel1 → c < fuel2 →
      processBufferFuel fuel1 cb = processBufferFuel fuel2 cb := by
  intro c
  induction c using Nat.strong_induction_on with
  | _ c ih =>
    intro fuel1 fuel2 cb hc hf1 hf2
    obtain ⟨f1, rfl⟩ : ∃ f1, fuel1 = f1 + 1 := ⟨fuel1 - 1, by omega⟩
    obtain ⟨f2, rfl⟩ : ∃ f2, fuel2 = f2 + 1 := ⟨fuel2 - 1, by omega⟩
    simp only [processBufferFuel]
    by_cases hs : cb.Size < 2
    · simp [hs]
    · have hc2 : 2 ≤ cb.count_ := by
        have hx := hs
        simp [CircularBuffer.Size] at hx
        omega
      have hpop1 : (cb.Pop 1).count_ = c - 1 := by rw [Pop_count]; omega
      have hrec1 : processBufferFuel f1 (cb.Pop 1) = processBufferFuel f2 (cb.Pop 1) :=
        ih (c - 1) (by omega) f1 f2 (cb.Pop 1) hpop1 (by omega) (by omega)
      by_cases hp0 : cb.Peek 0 ≠ 0xAA
      · simp [hs, hp0, hrec1]
      · by_cases hp1 : cb.Peek 1 < 3
        · simp [hs, hp0, hp1, hrec1]
        · by_cases hcomp : cb.Size < 1 + cb.Peek 1
          · simp [hs, hp0, hp1, hcomp]
          · by_cases hcrc : frameReceivedCrc (candidateFrame cb) =
                frameCalculatedCrc (candidateFrame cb) (cb.Peek 1)
            · have hlenS : 1 + cb.Peek 1 ≤ cb.count_ := by
                have hx := hcomp
                simp [CircularBuffer.Size] at hx
                omega
              have hpopT : (cb.Pop (1 + cb.Peek 1)).count_ = c - (1 + cb.Peek 1) := by
                rw [Pop_count]
                omega
              have hrecT : processBufferFuel f1 (cb.Pop (1 + cb.Peek 1)) =
                  processBufferFuel f2 (cb.Pop (1 + cb.Peek 1)) :=
                ih (c - (1 + cb.Peek 1)) (by omega) f1 f2 _ hpopT (by omega) (by omega)
              simp [hs, hp0, hp1, hcomp, hcrc, hrecT]
            · simp [hs, hp0, hp1, hcomp, hcrc, hrec1]

theorem ProcessBuffer_eq_fuel (cb : CircularBuffer) (fuel : Nat) (h : cb.count_ < fuel) :
    SerialTransport.ProcessBuffer cb = processBufferFuel fuel cb :=
  processBufferFuel_congr cb.count_ (cb.count_ + 1) fuel cb rfl (by omega) h

/-- C6: when the buffer starts with the 0xAA marker and a length byte of
at least 3 but holds fewer than 1 + length bytes, frame extraction stops
without discarding anything: the ring buffer and the inbound queue are
returned unchanged. -/
theorem partial_frame_defers (cb : CircularBuffer) (h2 : 2 ≤ cb.Size)
    (hm : cb.Peek 0 = 0xAA) (hl : 3 ≤ cb.Peek 1) (hs : cb.Size < 1 + cb.Peek 1) :
    SerialTransport.ProcessBuffer cb = (cb, []) := by
  have hns : ¬ cb.Size < 2 := by omega
  have hnm : ¬ cb.Peek 0 ≠ 0xAA := by simp [hm]
  have hnl : ¬ cb.Peek 1 < 3 := by omega
  unfold SerialTransport.ProcessBuffer
  simp only [processBufferFuel, if_neg hns, if_neg hnm, if_neg hnl, if_pos hs]

/-- C6 witness: the theorem applied to a buffer of capacity 8 holding the
3-byte prefix [0xAA, 5, 1] of a frame announcing 6 bytes. -/
theorem partial_frame_defers_witness :
    SerialTransport.ProcessBuffer ((CircularBuffer.create 8).Push [0xAA, 5, 1]) =
      ((CircularBuffer.create 8).Push [0xAA, 5, 1], []) :=
  partial_frame_defers ((CircularBuffer.create 8).Push [0xAA, 5, 1])
    (by decide) (by decide) (by decide) (by decide)

/-- C5: whenever the head of the buffer fails frame validation — head byte
not 0xAA, length byte below 3, or a complete candidate whose recomputed
CRC does not match the trailing CRC bytes — extraction discards exactly
one byte (never the whole candidate) and rescans the remainder: the run
on the buffer equals the run on the buffer with one byte popped, the size
drops by exactly one, and every remaining byte shifts up by one offset. -/
theorem corrupted_frame_resync (cb : CircularBuffer) (e : Nat)
    (hsz : cb.size_ = 2 ^ e) (hmask : cb.mask_ = cb.size_ - 1)
    (h2 : 2 ≤ cb.Size)
    (hcase : cb.Peek 0 ≠ 0xAA ∨ cb.Peek 1 < 3 ∨
      (1 + cb.Peek 1 ≤ cb.Size ∧
        frameReceivedCrc (candidateFrame cb) ≠ frameCalculatedCrc (candidateFrame cb) (cb.Peek 1))) :
    SerialTransport.ProcessBuffer cb = SerialTransport.ProcessBuffer (cb.Pop 1) ∧
    (cb.Pop 1).Size = cb.Size - 1 ∧
    ∀ i, (cb.Pop 1).Peek i = cb.Peek (1 + i) := by
  have hc2 : 2 ≤ cb.count_ := by
    have hx := h2
    simp [CircularBuffer.Size] at hx
    exact hx
  have hns : ¬ cb.Size < 2 := by omega
  have hpop1c : (cb.Pop 1).count_ = cb.count_ - 1 := by rw [Pop_count]; omega
  refine ⟨?_, ?_, ?_⟩
  · unfold SerialTransport.ProcessBuffer
    have hrhs : processBufferFuel ((cb.Pop 1).count_ + 1) (cb.Pop 1) =
        processBufferFuel cb.count_ (cb.Pop 1) :=
      processBufferFuel_congr (cb.Pop 1).count_ ((cb.Pop 1).count_ + 1) cb.count_ (cb.Pop 1)
        rfl (by omega) (by omega)
    rw [hrhs]
    simp only [processBufferFuel]
    rcases hcase with hA | hB | hC
    · simp [hns, hA]
    · by_cases hA : cb.Peek 0 ≠ 0xAA
      · simp [hns, hA]
      · simp [hns, hA, hB]
    · obtain ⟨hcomp, hcrc⟩ := hC
      by_cases hA : cb.Peek 0 ≠ 0xAA
      · simp [hns, hA]
      · by_cases hB : cb.Peek 1 < 3
        · simp [hns, hA, hB]
        · have hnc : ¬ cb.Size < 1 + cb.Peek 1 := by omega
          simp [hns, hA, hB, hnc, hcrc]
  · simp only [CircularBuffer.Size]
    exact hpop1c
  · intro i
    unfold CircularBuffer.Peek
    rw [Pop_buffer, Pop_mask, Pop_tail]
    have hmin : min 1 cb.count_ = 1 := by omega
    rw [hmin, hmask, hsz]
    simp only [Nat.and_pow_two_sub_one_eq_mod]
    have hpos : ((cb.tail_ + 1) % 2 ^ e + i) % 2 ^ e = (cb.tail_ + (1 + i)) % 2 ^ e := by
      rw [Nat.mod_add_mod]
      congr 1
      omega
    rw [hpos]

/-- C5 witness: the theorem applied to a capacity-8 buffer holding the two
garbage bytes [0, 0] (head byte not 0xAA). -/
theorem corrupted_frame_resync_witness :
    SerialTransport.ProcessBuffer ((CircularBuffer.create 8).Push [0, 0]) =
      SerialTransport.ProcessBuffer (((CircularBuffer.create 8).Push [0, 0]).Pop 1) ∧
    (((CircularBuffer.create 8).Push [0, 0]).Pop 1).Peek 0 =
      ((CircularBuffer.create 8).Push [0, 0]).Peek 1 :=
  ⟨(corrupted_frame_resync ((CircularBuffer.create 8).Push [0, 0]) 3
      (by decide) (by decide) (by decide) (Or.inl (by decide))).1,
   (corrupted_frame_resync ((CircularBuffer.create 8).Push [0, 0]) 3
      (by decide) (by decide) (by decide) (Or.inl (by decide))).2.2 0⟩

theorem mod_ne_of_small_gap {a b C : Nat} (hlt : b < a) (hgap : a - b < C) : a % C ≠ b % C := by
  intro h
  have hdvd : C ∣ a - b := (Nat.modEq_iff_dvd' (Nat.le_of_lt hlt)).mp h.symm
  have hle : C ≤ a - b := Nat.le_of_dvd (by omega) hdvd
  omega

theorem memcpyList_length : ∀ (data buf : List Nat) (dst : Nat),
    (memcpyList buf dst data).length = buf.length := by
  intro data
  induction data with
  | nil => intro buf dst; rfl
  | cons x xs ih =>
    intro buf dst
    simp only [memcpyList]
    rw [ih, List.length_set]

theorem memcpyList_getD_low : ∀ (data buf : List Nat) (dst p : Nat), p < dst →
    (memcpyList buf dst data).getD p 0 = buf.getD p 0 := by
  intro data
  induction data with
  | nil => intro buf dst p hp; rfl
  | cons x xs ih =>
    intro buf dst p hp
    simp only [memcpyList]
    rw [ih (buf.set dst x) (dst + 1) p (by omega)]
    rw [List.getD_eq_getElem?_getD, List.getD_eq_getElem?_getD,
      List.getElem?_set_ne (by omega)]

theorem memcpyList_getD_high : ∀ (data buf : List Nat) (dst p : Nat), dst + data.length ≤ p →
    (memcpyList buf dst data).getD p 0 = buf.getD p 0 := by
  intro data
  induction data with
  | nil => intro buf dst p hp; rfl
  | cons x xs ih =>
    intro buf dst p hp
    simp only [List.length_cons] at hp
    simp only [memcpyList]
    rw [ih (buf.set dst x) (dst + 1) p (by omega)]
    rw [List.getD_eq_getElem?_getD, List.getD_eq_getElem?_getD,
      List.getElem?_set_ne (by omega)]

theorem memcpyList_getD_mid : ∀ (data buf : List Nat) (dst i : Nat), i < data.length →
    dst + data.length ≤ buf.length →
    (memcpyList buf dst data).getD (dst + i) 0 = data.getD i 0 := by
  intro data
  induction data with
  | nil =>
    intro buf dst i hi _
    exact absurd hi (by simp)
  | cons x xs ih =>
    intro buf dst i hi hb
    simp only [List.length_cons] at hi hb
    simp only [memcpyList]
    match i with
    | 0 =>
      rw [memcpyList_getD_low xs (buf.set dst x) (dst + 1) (dst + 0) (by omega)]
      have hdst : dst < buf.length := by omega
      rw [List.getD_eq_getElem?_getD]
      simp [List.getElem?_set, hdst]
    | j + 1 =>
      rw [show dst + (j + 1) = (dst + 1) + j by omega]
      rw [ih (buf.set dst x) (dst + 1) j (by omega) (by rw [List.length_set]; omega)]
      rw [List.getD_cons_succ]

theorem Push_buffer (cb : CircularBuffer) (data : List Nat) :
    (cb.Push data).buffer_ = pushedBuffer cb data := by
  unfold CircularBuffer.Push
  split <;> rfl

theorem Push_size (cb : CircularBuffer) (data : List Nat) :
    (cb.Push data).size_ = cb.size_ := by
  unfold CircularBuffer.Push
  split <;> rfl

theorem Push_mask (cb : CircularBuffer) (data : List Nat) :
    (cb.Push data).mask_ = cb.mask_ := by
  unfold CircularBuffer.Push
  split <;> rfl

theorem Push_head (cb : CircularBuffer) (data : List Nat) :
    (cb.Push data).head_ = (cb.head_ + data.length) &&& cb.mask_ := by
  unfold CircularBuffer.Push
  split <;> rfl

theorem Push_count (cb : CircularBuffer) (data : List Nat) :
    (cb.Push data).count_ =
      if cb.count_ + data.length > cb.size_ then cb.size_ else cb.count_ + data.length := by
  unfold CircularBuffer.Push
  split <;> rename_i h <;> simp [h]

theorem Push_tail (cb : CircularBuffer) (data : List Nat) :
    (cb.Push data).tail_ =
      if cb.count_ + data.length > cb.size_ then
        (cb.tail_ + (cb.count_ + data.length - cb.size_)) &&& cb.mask_
      else cb.tail_ := by
  unfold CircularBuffer.Push
  split <;> rename_i h <;> simp [h]

theorem pushedBuffer_length (cb : CircularBuffer) (data : List Nat) :
    (pushedBuffer cb data).length = cb.buffer_.length := by
  unfold pushedBuffer
  dsimp only
  split <;> split <;> simp [memcpyList_length]

theorem pushedBuffer_getD_write (cb : CircularBuffer) (data : List Nat)
    (hlen : cb.buffer_.length = cb.size_) (hhead : cb.head_ < cb.size_)
    (hdata : data.length ≤ cb.size_)
    (i : Nat) (hi : i < data.length) :
    (pushedBuffer cb data).getD ((cb.head_ + i) % cb.size_) 0 = data.getD i 0 := by
  unfold pushedBuffer
  dsimp only
  by_cases hsplit : data.length < cb.size_ - cb.head_
  · simp only [if_pos hsplit]
    rw [if_neg (by omega), List.take_length]
    rw [Nat.mod_eq_of_lt (by omega)]
    exact memcpyList_getD_mid data cb.buffer_ cb.head_ i hi (by omega)
  · simp only [if_neg hsplit]
    by_cases houter : data.length > cb.size_ - cb.head_
    · simp only [if_pos houter]
      by_cases hi2 : i < cb.size_ - cb.head_
      · rw [Nat.mod_eq_of_lt (by omega)]
        rw [memcpyList_getD_high (data.drop (cb.size_ - cb.head_)) _ 0 _
          (by simp only [List.length_drop]; omega)]
        have htk : i < (data.take (cb.size_ - cb.head_)).length := by
          simp only [List.length_take]
          omega
        have hbd : cb.head_ + (data.take (cb.size_ - cb.head_)).length ≤ cb.buffer_.length := by
          simp only [List.length_take]
          omega
        rw [memcpyList_getD_mid (data.take (cb.size_ - cb.head_)) cb.buffer_ cb.head_ i htk hbd]
        rw [List.getD_eq_getElem?_getD, List.getD_eq_getElem?_getD]
        simp [List.getElem?_take, hi2]
      · have hmod : (cb.head_ + i) % cb.size_ = cb.head_ + i - cb.size_ := by
          rw [Nat.mod_eq_sub_mod (by omega), Nat.mod_eq_of_lt (by omega)]
        rw [hmod, show cb.head_ + i - cb.size_ = 0 + (i - (cb.size_ - cb.head_)) by omega]
        have hj : i - (cb.size_ - cb.head_) < (data.drop (cb.size_ - cb.head_)).length := by
          simp only [List.length_drop]
          omega
        have hbd : 0 + (data.drop (cb.size_ - cb.head_)).length ≤
            (memcpyList cb.buffer_ cb.head_ (data.take (cb.size_ - cb.head_))).length := by
          rw [memcpyList_length]
          simp only [List.length_drop]
          omega
        rw [memcpyList_getD_mid (data.drop (cb.size_ - cb.head_)) _ 0 _ hj hbd]
        rw [List.getD_eq_getElem?_getD, List.getD_eq_getElem?_getD, List.getElem?_drop]
        rw [show cb.size_ - cb.head_ + (i - (cb.size_ - cb.head_)) = i by omega]
    · simp only [if_neg houter]
      have heq : data.length = cb.size_ - cb.head_ := by omega
      rw [Nat.mod_eq_of_lt (by omega)]
      have htk : i < (data.take (cb.size_ - cb.head_)).length := by
        simp only [List.length_take]
        omega
      have hbd : cb.head_ + (data.take (cb.size_ - cb.head_)).length ≤ cb.buffer_.length := by
        simp only [List.length_take]
        omega
      rw [memcpyList_getD_mid (data.take (cb.size_ - cb.head_)) cb.buffer_ cb.head_ i htk hbd]
      rw [List.getD_eq_getElem?_getD, List.getD_eq_getElem?_getD]
      simp [List.getElem?_take, show i < cb.size_ - cb.head_ by omega]

theorem pushedBuffer_getD_keep (cb : CircularBuffer) (data : List Nat)
    (hlen : cb.buffer_.length = cb.size_) (hhead : cb.head_ < cb.size_)
    (hdata : data.length ≤ cb.size_)
    (p : Nat) (hp : p < cb.size_)
    (hmiss : ∀ i, i < data.length → (cb.head_ + i) % cb.size_ ≠ p) :
    (pushedBuffer cb data).getD p 0 = cb.buffer_.getD p 0 := by
  have hnotin : ∀ fc, fc ≤ cb.size_ - cb.head_ → fc ≤ data.length →
      p < cb.head_ ∨ cb.head_ + fc ≤ p := by
    intro fc hfc1 hfc2
    by_contra hcon
    push_neg at hcon
    obtain ⟨hge, hlt⟩ := hcon
    exact hmiss (p - cb.head_) (by omega)
      (by rw [show cb.head_ + (p - cb.head_) = p by omega, Nat.mod_eq_of_lt hp])
  unfold pushedBuffer
  dsimp only
  by_cases hsplit : data.length < cb.size_ - cb.head_
  · simp only [if_pos hsplit]
    rw [if_neg (by omega), List.take_length]
    rcases hnotin data.length (by omega) (by omega) with hlow | hhigh
    · exact memcpyList_getD_low data cb.buffer_ cb.head_ p hlow
    · exact memcpyList_getD_high data cb.buffer_ cb.head_ p hhigh
  · simp only [if_neg hsplit]
    by_cases houter : data.length > cb.size_ - cb.head_
    · simp only [if_pos houter]
      have hp2 : data.length - (cb.size_ - cb.head_) ≤ p := by
        by_contra hcon
        push_neg at hcon
        refine hmiss (p + (cb.size_ - cb.head_)) (by omega) ?_
        rw [show cb.head_ + (p + (cb.size_ - cb.head_)) = cb.size_ + p by omega]
        rw [Nat.add_mod_left, Nat.mod_eq_of_lt hp]
      rw [memcpyList_getD_high (data.drop (cb.size_ - cb.head_)) _ 0 p
        (by simp only [List.length_drop]; omega)]
      rcases hnotin (cb.size_ - cb.head_) (by omega) (by omega) with hlow | hhigh
      · rw [memcpyList_getD_low (data.take (cb.size_ - cb.head_)) cb.buffer_ cb.head_ p hlow]
      · exact absurd hhigh (by omega)
    · simp only [if_neg houter]
      have heq : data.length = cb.size_ - cb.head_ := by omega
      rcases hnotin data.length (by omega) (by omega) with hlow | hhigh
      · exact memcpyList_getD_low (data.take (cb.size_ - cb.head_)) cb.buffer_ cb.head_ p hlow
      · exact memcpyList_getD_high (data.take (cb.size_ - cb.head_)) cb.buffer_ cb.head_ p
          (by simp only [List.length_take]; omega)

theorem streamInv_create (C : Nat) : streamInv C [] (CircularBuffer.create C) := by
  unfold streamInv CircularBuffer.create
  refine ⟨rfl, rfl, by simp, by simp, by simp, by simp, ?_⟩
  intro m h1 h2
  exact absurd h2 (by simp)

theorem streamInv_push (e : Nat) (S : List Nat) (cb : CircularBuffer) (data : List Nat)
    (hinv : streamInv (2 ^ e) S cb) (hdata : data.length ≤ 2 ^ e) :
    streamInv (2 ^ e) (S ++ data) (cb.Push data) := by
  obtain ⟨hsz, hmask, hbl, hcount, hhead, htail, hpt⟩ := hinv
  have hC : 0 < 2 ^ e := by positivity
  have hheadlt : cb.head_ < 2 ^ e := by
    rw [hhead]
    exact Nat.mod_lt _ hC
  have hminle : min S.length (2 ^ e) ≤ S.length := Nat.min_le_left _ _
  have hc2 : (cb.Push data).count_ = min (S.length + data.length) (2 ^ e) := by
    rw [Push_count, hcount, hsz]
    split <;> omega
  refine ⟨?_, ?_, ?_, ?_, ?_, ?_, ?_⟩
  · rw [Push_size, hsz]
  · rw [Push_mask, hmask]
  · rw [Push_buffer, pushedBuffer_length, hbl]
  · rw [hc2, List.length_append]
  · rw [Push_head, hmask, hhead, Nat.and_pow_two_sub_one_eq_mod]
    simp only [List.length_append]
    rw [Nat.mod_add_mod]
  · rw [Push_tail, hc2, hmask, hsz, htail, hcount]
    simp only [List.length_append, Nat.and_pow_two_sub_one_eq_mod]
    split
    · rename_i h
      rw [Nat.mod_add_mod]
      congr 1
      omega
    · rename_i h
      congr 1
      omega
  · intro m hm1 hm2
    rw [hc2] at hm1
    simp only [List.length_append] at hm1 hm2
    rw [Push_buffer]
    by_cases hmn : S.length ≤ m
    · have hi : m - S.length < data.length := by omega
      have hkey : (cb.head_ + (m - S.length)) % cb.size_ = m % (2 ^ e) := by
        rw [hsz, hhead, Nat.mod_add_mod]
        congr 1
        omega
      have hw := pushedBuffer_getD_write cb data (by rw [hbl, hsz])
        (by rw [hsz]; exact hheadlt) (by rw [hsz]; exact hdata) (m - S.length) hi
      rw [hkey] at hw
      rw [hw, List.getD_append_right S data 0 m hmn]
    · push_neg at hmn
      have hmiss : ∀ i, i < data.length → (cb.head_ + i) % cb.size_ ≠ m % (2 ^ e) := by
        intro i hi hcontra
        rw [hsz, hhead, Nat.mod_add_mod] at hcontra
        have hgap : (S.length + i) - m < 2 ^ e := by omega
        exact mod_ne_of_small_gap (by omega) hgap hcontra
      have hk := pushedBuffer_getD_keep cb data (by rw [hbl, hsz])
        (by rw [hsz]; exact hheadlt) (by rw [hsz]; exact hdata) (m % (2 ^ e))
        (by rw [hsz]; exact Nat.mod_lt _ hC) hmiss
      rw [hk, hpt m (by omega) hmn, List.getD_append S data 0 m hmn]

theorem streamInv_pushChunks (e : Nat) :
    ∀ (chunks : List (List Nat)) (S : List Nat) (cb : CircularBuffer),
      streamInv (2 ^ e) S cb → (∀ c ∈ chunks, c.length ≤ 2 ^ e) →
      streamInv (2 ^ e) (S ++ chunks.flatten) (cb.pushChunks chunks) := by
  intro chunks
  induction chunks with
  | nil =>
    intro S cb h hc
    simpa [CircularBuffer.pushChunks] using h
  | cons c cs ih =>
    intro S cb h hc
    have h1 := streamInv_push e S cb c h (hc c (by simp))
    have h2 := ih (S ++ c) (cb.Push c) h1 (fun d hd => hc d (by simp [hd]))
    simpa [CircularBuffer.pushChunks, List.append_assoc] using h2

/-- C7: pushing a byte stream of total length 2 ^ e + k (k > 0) into a
ring buffer of capacity 2 ^ e, in chunks of arbitrary sizes each at most
the capacity, leaves size() equal to the capacity, and peek(0) returns
the byte at stream offset k: the oldest k bytes are silently discarded
and the most recent 2 ^ e bytes are retained. -/
theorem ring_buffer_overflow (e k : Nat) (chunks : List (List Nat)) (hk : 0 < k)
    (hc : ∀ c ∈ chunks, c.length ≤ 2 ^ e)
    (ht : chunks.flatten.length = 2 ^ e + k) :
    ((CircularBuffer.create (2 ^ e)).pushChunks chunks).Size = 2 ^ e ∧
    ((CircularBuffer.create (2 ^ e)).pushChunks chunks).Peek 0 = chunks.flatten.getD k 0 := by
  have hC : 0 < 2 ^ e := by positivity
  have hinv := streamInv_pushChunks e chunks [] (CircularBuffer.create (2 ^ e))
    (streamInv_create (2 ^ e)) hc
  rw [List.nil_append] at hinv
  obtain ⟨hsz, hmask, hbl, hcount, hhead, htail, hpt⟩ := hinv
  constructor
  · rw [CircularBuffer.Size, hcount, ht]
    omega
  · rw [CircularBuffer.Peek, hmask, Nat.and_pow_two_sub_one_eq_mod]
    rw [htail, hcount, ht]
    rw [show 2 ^ e + k - min (2 ^ e + k) (2 ^ e) = k by omega]
    rw [Nat.add_zero, Nat.mod_mod_of_dvd k dvd_rfl]
    exact hpt k (by rw [hcount, ht]; omega) (by omega)

/-- C7 witness: capacity 4 (e = 2), stream [1,2,3] ++ [4,5] of length 5,
k = 1: size is 4 and peek(0) is the byte at stream offset 1. -/
theorem ring_buffer_overflow_witness :
    ((CircularBuffer.create (2 ^ 2)).pushChunks [[1, 2, 3], [4, 5]]).Size = 2 ^ 2 ∧
    ((CircularBuffer.create (2 ^ 2)).pushChunks [[1, 2, 3], [4, 5]]).Peek 0 =
      ([[1, 2, 3], [4, 5]] : List (List Nat)).flatten.getD 1 0 :=
  ring_buffer_overflow 2 1 [[1, 2, 3], [4, 5]] (by decide) (by decide) (by decide)

theorem processBufferFuel_succ (fuel : Nat) (cb : CircularBuffer) :
    processBufferFuel (fuel + 1) cb =
      if cb.Size < 2 then (cb, [])
      else if cb.Peek 0 ≠ 0xAA then processBufferFuel fuel (cb.Pop 1)
      else if cb.Peek 1 < 3 then processBufferFuel fuel (cb.Pop 1)
      else if cb.Size < 1 + cb.Peek 1 then (cb, [])
      else if frameReceivedCrc (candidateFrame cb) =
          frameCalculatedCrc (candidateFrame cb) (cb.Peek 1) then
        ((processBufferFuel fuel (cb.Pop (1 + cb.Peek 1))).1,
          framePayload (candidateFrame cb) (cb.Peek 1) ::
            (processBufferFuel fuel (cb.Pop (1 + cb.Peek 1))).2)
      else processBufferFuel fuel (cb.Pop 1) := by
  simp only [processBufferFuel]

theorem push_create_count (e : Nat) (data : List Nat) (hdata : data.length ≤ 2 ^ e) :
    ((CircularBuffer.create (2 ^ e)).Push data).count_ = data.length := by
  have hinv := streamInv_push e [] (CircularBuffer.create (2 ^ e)) data (streamInv_create _) hdata
  rw [List.nil_append] at hinv
  obtain ⟨hsz, hmask, hbl, hcount, hhead, htail, hpt⟩ := hinv
  rw [hcount]
  omega

theorem push_create_peek (e : Nat) (data : List Nat) (hdata : data.length ≤ 2 ^ e) :
    ∀ i, i < data.length → ((CircularBuffer.create (2 ^ e)).Push data).Peek i = data.getD i 0 := by
  have hinv := streamInv_push e [] (CircularBuffer.create (2 ^ e)) data (streamInv_create _) hdata
  rw [List.nil_append] at hinv
  obtain ⟨hsz, hmask, hbl, hcount, hhead, htail, hpt⟩ := hinv
  intro i hi
  rw [CircularBuffer.Peek, hmask, Nat.and_pow_two_sub_one_eq_mod, htail, hcount]
  rw [show data.length - min data.length (2 ^ e) = 0 by omega]
  rw [Nat.zero_mod, Nat.zero_add]
  exact hpt i (by omega) hi

theorem candidateFrame_eq (cb : CircularBuffer) (l : List Nat) (hlen : l.length = 1 + cb.Peek 1)
    (hpeek : ∀ i, i < l.length → cb.Peek i = l.getD i 0) :
    candidateFrame cb = l := by
  unfold candidateFrame
  apply List.ext_getElem
  · simp [hlen]
  · intro i h1 h2
    simp only [List.getElem_map, List.getElem_range]
    rw [hpeek i (by simp at h1; omega)]
    exact List.getD_eq_getElem l 0 h2

/-- C2: the frame produced by the send path for a payload p with
1 <= len(p) <= 252, fed into an empty ring buffer, is decoded by frame
extraction into exactly the payload p (pushed to the inbound queue), and
the whole frame is consumed from the buffer. -/
theorem frame_round_trip (p : List Nat) (h1 : 1 ≤ p.length) (h2 : p.length ≤ 252)
    (hb : ∀ b ∈ p, b < 256) :
    (SerialTransport.ProcessBuffer ((CircularBuffer.create 65536).Push (sendFrame p))).2 = [p] ∧
    (SerialTransport.ProcessBuffer ((CircularBuffer.create 65536).Push (sendFrame p))).1.Size = 0 := by
  rw [show (65536 : Nat) = 2 ^ 16 from by norm_num]
  have hcrc_lt : CalculateCrc16 ((p.length + 3) :: p) < 65536 := by
    apply CalculateCrc16_lt
    intro b hbm
    rcases List.mem_cons.mp hbm with hbe | hbm2
    · omega
    · have := hb b hbm2
      omega
  have hframe : sendFrame p = 0xAA :: (p.length + 3) :: p ++
      [CalculateCrc16 ((p.length + 3) :: p) &&& 255,
       (CalculateCrc16 ((p.length + 3) :: p) >>> 8) &&& 255] := by
    unfold sendFrame
    dsimp only
    rw [Nat.mod_eq_of_lt (show p.length + 3 < 256 by omega)]
  have hflen : (sendFrame p).length = p.length + 4 := by
    rw [hframe]
    simp only [List.length_cons, List.length_append, List.length_cons, List.length_nil]
  have hsplit : sendFrame p = (0xAA :: (p.length + 3) :: p) ++
      [CalculateCrc16 ((p.length + 3) :: p) &&& 255,
       (CalculateCrc16 ((p.length + 3) :: p) >>> 8) &&& 255] := hframe
  have hf0 : (sendFrame p).getD 0 0 = 0xAA := by rw [hframe]; rfl
  have hf1 : (sendFrame p).getD 1 0 = p.length + 3 := by rw [hframe]; rfl
  have hflo : (sendFrame p).getD (p.length + 2) 0 = CalculateCrc16 ((p.length + 3) :: p) &&& 255 := by
    rw [hsplit, List.getD_append_right _ _ _ _ (by simp)]
    simp
  have hfhi : (sendFrame p).getD (p.length + 3) 0 =
      (CalculateCrc16 ((p.length + 3) :: p) >>> 8) &&& 255 := by
    rw [hsplit, List.getD_append_right _ _ _ _ (by simp)]
    simp
  have hdle : (sendFrame p).length ≤ 2 ^ 16 := by
    rw [hflen]
    have hpow : (2 : Nat) ^ 16 = 65536 := by norm_num
    omega
  have hpeek := push_create_peek 16 (sendFrame p) hdle
  have hcnt := push_create_count 16 (sendFrame p) hdle
  rw [hflen] at hcnt
  have hp0 : ((CircularBuffer.create (2 ^ 16)).Push (sendFrame p)).Peek 0 = 0xAA := by
    rw [hpeek 0 (by omega), hf0]
  have hp1 : ((CircularBuffer.create (2 ^ 16)).Push (sendFrame p)).Peek 1 = p.length + 3 := by
    rw [hpeek 1 (by rw [hflen]; omega), hf1]
  have hcand : candidateFrame ((CircularBuffer.create (2 ^ 16)).Push (sendFrame p)) = sendFrame p := by
    apply candidateFrame_eq
    · rw [hflen, hp1]
      omega
    · intro i hi
      exact hpeek i hi
  have hrecv : frameReceivedCrc (sendFrame p) = CalculateCrc16 ((p.length + 3) :: p) := by
    unfold frameReceivedCrc
    rw [hflen]
    rw [show p.length + 4 - 2 = p.length + 2 from by omega]
    rw [show p.length + 4 - 1 = p.length + 3 from by omega]
    rw [hflo, hfhi]
    exact crc_lor_split hcrc_lt
  have hcalc : frameCalculatedCrc (sendFrame p) (p.length + 3) =
      CalculateCrc16 ((p.length + 3) :: p) := by
    unfold frameCalculatedCrc
    rw [show p.length + 3 - 2 = p.length + 1 from by omega]
    rw [hframe]
    rw [show (0xAA :: (p.length + 3) :: p ++
        [CalculateCrc16 ((p.length + 3) :: p) &&& 255,
         (CalculateCrc16 ((p.length + 3) :: p) >>> 8) &&& 255]).drop 1 =
      ((p.length + 3) :: p) ++
        [CalculateCrc16 ((p.length + 3) :: p) &&& 255,
         (CalculateCrc16 ((p.length + 3) :: p) >>> 8) &&& 255] from rfl]
    rw [List.take_append_of_le_length (by simp)]
    rw [List.take_succ_cons, List.take_length]
  have hpay : framePayload (sendFrame p) (p.length + 3) = p := by
    unfold framePayload
    rw [if_pos (by omega)]
    rw [hflen]
    rw [show p.length + 4 - 2 = p.length + 2 from by omega]
    rw [hsplit, List.take_append_of_le_length (by simp)]
    rw [show p.length + 2 = (p.length + 1) + 1 from by omega]
    rw [List.take_succ_cons, List.take_succ_cons, List.take_length]
    rfl
  have hcrceq : frameReceivedCrc (candidateFrame ((CircularBuffer.create (2 ^ 16)).Push (sendFrame p))) =
      frameCalculatedCrc (candidateFrame ((CircularBuffer.create (2 ^ 16)).Push (sendFrame p)))
        (((CircularBuffer.create (2 ^ 16)).Push (sendFrame p)).Peek 1) := by
    rw [hcand, hp1, hrecv, hcalc]
  have hSz : ((CircularBuffer.create (2 ^ 16)).Push (sendFrame p)).Size = p.length + 4 := by
    rw [CircularBuffer.Size, hcnt]
  have hpopc : (((CircularBuffer.create (2 ^ 16)).Push (sendFrame p)).Pop
      (1 + ((CircularBuffer.create (2 ^ 16)).Push (sendFrame p)).Peek 1)).count_ = 0 := by
    rw [Pop_count, hp1, hcnt]
    omega
  have hrest : processBufferFuel (p.length + 4)
      (((CircularBuffer.create (2 ^ 16)).Push (sendFrame p)).Pop
        (1 + ((CircularBuffer.create (2 ^ 16)).Push (sendFrame p)).Peek 1)) =
      (((CircularBuffer.create (2 ^ 16)).Push (sendFrame p)).Pop
        (1 + ((CircularBuffer.create (2 ^ 16)).Push (sendFrame p)).Peek 1), []) := by
    rw [show p.length + 4 = (p.length + 3) + 1 from rfl]
    rw [processBufferFuel_succ]
    rw [if_pos (by simp only [CircularBuffer.Size]; omega)]
  have hmain : SerialTransport.ProcessBuffer ((CircularBuffer.create (2 ^ 16)).Push (sendFrame p)) =
      (((CircularBuffer.create (2 ^ 16)).Push (sendFrame p)).Pop
        (1 + ((CircularBuffer.create (2 ^ 16)).Push (sendFrame p)).Peek 1), [p]) := by
    unfold SerialTransport.ProcessBuffer
    rw [hcnt]
    rw [processBufferFuel_succ]
    rw [if_neg (by rw [hSz]; omega)]
    rw [if_neg (by rw [hp0]; simp)]
    rw [if_neg (by rw [hp1]; omega)]
    rw [if_neg (by rw [hSz, hp1]; omega)]
    rw [if_pos hcrceq]
    rw [hrest]
    rw [hcand, hp1, hpay]
  rw [hmain]
  constructor
  · rfl
  · rw [CircularBuffer.Size]
    exact hpopc

/-- C2 witness: the theorem applied at the one-byte payload [7]. -/
theorem frame_round_trip_witness :
    (SerialTransport.ProcessBuffer ((CircularBuffer.create 65536).Push (sendFrame [7]))).2 = [[7]] ∧
    (SerialTransport.ProcessBuffer ((CircularBuffer.create 65536).Push (sendFrame [7]))).1.Size = 0 :=
  frame_round_trip [7] (by decide) (by decide) (by decide)
